import Mathlib

/-!
Shallow embedding of the Markov-chain analytics of the `giddy` package
(src/giddy/markov.py, src/giddy/ergodic.py, src/giddy/util.py,
src/giddy/directional.py) together with proofs about the embedded code.

Numpy float matrices are modelled over `ℚ` (exact arithmetic); a k-by-k
numpy array is modelled as a total function `Nat → Nat → ℚ` whose entries
outside the k-by-k block are irrelevant (and provably `0` for arrays that
the code builds from `np.zeros`).
-/

namespace Giddy

/-! ### Definitions: the embedded code -/

/-- A 2-d numpy float array, modelled as a total function over `ℚ`. -/
def Mat : Type := Nat → Nat → ℚ

/-- `m.sum(axis=1)` restricted to a row `r` of a `k`-column array:
the sum of the first `k` entries of row `r`. -/
def rowSumK (m : Mat) (k : Nat) (r : Nat) : ℚ :=
  ∑ c ∈ Finset.range k, m r c

/-- `giddy.util._fill_empty_diagonal_2d` (src/giddy/util.py:130-155), value
semantics: `p0 = p.sum(axis=1) == 0`; every row `r < k` with zero row sum
gets its diagonal entry `p[r, r]` set to `1`; all other entries are kept.
(The allocation behaviour of `copy.copy` is modelled separately below.) -/
def fillEmptyDiagonals2d (m : Mat) (k : Nat) : Mat :=
  fun r c => if r < k ∧ r = c ∧ rowSumK m k r = 0 then 1 else m r c

/-- `(P.sum(axis=1) == 0).sum()` for a `k`-by-`k` array: the number of
rows among the first `k` whose row sum is `0`. -/
def zeroRowCount (P : Mat) (k : Nat) : Nat :=
  ((List.range k).filter (fun r => decide (rowSumK P k r = 0))).length

/-- The `ValueError` message raised by `giddy.ergodic.steady_state` and
`giddy.ergodic.mfpt` for a matrix with `n` rows full of zeros
(src/giddy/ergodic.py:139-145 and 310-316). -/
def zeroRowsMsg (n : Nat) : String :=
  "Input transition probability matrix has " ++ toString n ++
    " rows full of 0s. Please set fill_empty_classes=True to set diagonal " ++
    "elements for these rows to be 1 to make sure the matrix is stochastic."

/-- The input-validation prefix of `giddy.ergodic.steady_state`
(src/giddy/ergodic.py:133-145): count the zero-sum rows; if any exist,
either repair the diagonal (`fill_empty_classes=True`) or raise a
`ValueError` reporting the count.  The `Except.ok` value is the matrix
handed to the downstream solver (the external `quantecon.MarkovChain`). -/
def steadyStateGate (P : Mat) (k : Nat) (fill : Bool) : Except String Mat :=
  if 0 < zeroRowCount P k then
    if fill then Except.ok (fillEmptyDiagonals2d P k)
    else Except.error (zeroRowsMsg (zeroRowCount P k))
  else Except.ok P

/-- The input-validation prefix of `giddy.ergodic.mfpt`
(src/giddy/ergodic.py:304-316); textually the same validation code as in
`steady_state`. -/
def mfptGate (P : Mat) (k : Nat) (fill : Bool) : Except String Mat :=
  if 0 < zeroRowCount P k then
    if fill then Except.ok (fillEmptyDiagonals2d P k)
    else Except.error (zeroRowsMsg (zeroRowCount P k))
  else Except.ok P

/-- A row `r` of the `k`-by-`k` block of `P` is identically zero. -/
def IsZeroRow (P : Mat) (k : Nat) (r : Nat) : Prop :=
  ∀ c < k, P r c = 0

instance (P : Mat) (k r : Nat) : Decidable (IsZeroRow P k r) :=
  Nat.decidableBallLT k (fun c _ => P r c = 0)

/-- The number of rows of the `k`-by-`k` block of `P` that are identically
zero (the claims' notion of "rows full of 0s"). -/
def allZeroRowCount (P : Mat) (k : Nat) : Nat :=
  ((List.range k).filter (fun r => decide (IsZeroRow P k r))).length

/-- `transitions[r, c] += v` on a 2-d numpy array: add `v` to a single cell. -/
def updateAdd (m : Mat) (r c : Nat) (v : ℚ) : Mat :=
  fun a b => if a = r ∧ b = c then m a b + v else m a b

/-- `ending = state_1[state_0 == i]` (src/giddy/markov.py:220): the
later-period states of exactly those units whose earlier-period state is
`i`, in unit order. -/
def endingOf {α : Type} [DecidableEq α] (s0 s1 : List α) (i : α) : List α :=
  ((s0.zip s1).filter (fun q => q.1 == i)).map Prod.snd

/-- The inner loop of `Markov.__init__` (src/giddy/markov.py:221-225): for
each distinct value `j` of `ending` (`np.unique` returns the distinct
values; sorted there, deduplicated here — the fold result is independent of
the iteration order because each distinct `j` updates its own cell), add
`sum(ending == j)` to `transitions[classes.index(i), classes.index(j)]`. -/
def innerPass {α : Type} [DecidableEq α] (classes : List α) (i : α)
    (ending : List α) (m : Mat) : Mat :=
  ending.dedup.foldl
    (fun acc j =>
      updateAdd acc (classes.indexOf i) (classes.indexOf j) ((ending.count j : ℚ)))
    m

/-- One consecutive period pair of the counting loop of `Markov.__init__`
(src/giddy/markov.py:214-225): iterate over the distinct earlier-period
values `np.unique(state_0)`. -/
def stepPair {α : Type} [DecidableEq α] (classes : List α) (m : Mat)
    (s0 s1 : List α) : Mat :=
  s0.dedup.foldl (fun acc i => innerPass classes i (endingOf s0 s1 i) acc) m

/-- `class_ids[:, s]`: column `s` of the `n × t` state-sequence array (rows
shorter than `s + 1` contribute the default value; under the shape
hypotheses of the theorems every access is in range). -/
def colOf {α : Type} [Inhabited α] (ids : List (List α)) (s : Nat) : List α :=
  ids.map (fun row => row.getD s default)

/-- `self.transitions` of `Markov.__init__` (src/giddy/markov.py:210-226):
starting from `np.zeros((k, k))`, process the `t - 1` consecutive period
pairs. -/
def transitionsOf {α : Type} [DecidableEq α] [Inhabited α] (classes : List α)
    (ids : List (List α)) (t : Nat) : Mat :=
  (List.range (t - 1)).foldl
    (fun m s => stepPair classes m (colOf ids s) (colOf ids (s + 1)))
    (fun _ _ => 0)

/-- `self.p` of `Markov.__init__` (src/giddy/markov.py:227-228):
`np.dot(np.diag(1/(row_sum + (row_sum == 0))), transitions)`. -/
def markovP (trans : Mat) (k : Nat) : Mat :=
  fun r c =>
    1 / (rowSumK trans k r + if rowSumK trans k r = 0 then 1 else 0) * trans r c

/-- The number of (unit, period-pair) observations that move from state `a`
to state `b` within one period pair: units are paired positionally between
the two columns. -/
def pairCountN {α : Type} [DecidableEq α] (s0 s1 : List α) (a b : α) : Nat :=
  ((s0.zip s1).filter (fun q => q.1 == a && q.2 == b)).length

/-- `p_temp` of `Markov.__init__` (src/giddy/markov.py:233-235): the copy of
`self.p` handed to `qe.MarkovChain` and used for the class-structure
attributes; diagonally repaired whenever `self.p` has zero-sum rows, even
when `fill_empty_classes` is `False`. -/
def pTempOf (p : Mat) (k : Nat) : Mat :=
  if 0 < zeroRowCount p k then fillEmptyDiagonals2d p k else p

/-- `giddy.markov.sojourn_time` (src/giddy/markov.py:2042-2102) on a
`k`-by-`k` matrix.  `np.inf` entries are modelled as `none`.  Returns the
sojourn-time vector paired with the diagnostic listing of absorbing-state
indices (`np.where(pii == 1)[0]`) printed when `summary` holds and
`not (1 - pii).all()` (some diagonal entry is `1`); `none` when nothing is
printed.  The intermediate `qe.MarkovChain(p)` call binds an external
object the function never reads. -/
def sojournTime (p : Mat) (k : Nat) (summary : Bool) :
    List (Option ℚ) × Option (List Nat) :=
  let q := if 0 < zeroRowCount p k then fillEmptyDiagonals2d p k else p
  let pii := (List.range k).map (fun i => q i i)
  if pii.any (fun x => decide (1 - x = 0)) then
    ((List.range k).map (fun i =>
        if q i i = 1 then none else some (1 / (1 - q i i))),
     if summary then some ((List.range k).filter (fun i => decide (q i i = 1)))
     else none)
  else
    ((List.range k).map (fun i => some (1 / (1 - q i i))), none)

/-- `cases = (True, False)` (src/giddy/markov.py:52). -/
def sigCases : List Bool := [true, false]

/-- The move-type table `TT` (src/giddy/markov.py:36-41): `c = 1`; `for i in
range(1, 5): for j in range(1, 5): TT[i, j] = c; c += 1`.  The double loop
is the row-major key enumeration zipped with the counter values `1..16`. -/
def ttTable : List ((Nat × Nat) × Nat) :=
  ((List.range' 1 4).flatMap (fun i => (List.range' 1 4).map (fun j => (i, j)))).zip
    (List.range' 1 16)

/-- `TT[i, j]` (a `np.zeros((5, 5), int)` table, so unassigned cells read
`0`). -/
def TT (i j : Nat) : Nat := (ttTable.lookup (i, j)).getD 0

/-- `sig_keys = [(i, j) for i in cases for j in cases]`
(src/giddy/markov.py:53). -/
def sigKeys : List (Bool × Bool) :=
  sigCases.flatMap (fun i => sigCases.map (fun j => (i, j)))

/-- The `MOVE_TYPES` dictionary (src/giddy/markov.py:50-61): for the `m`-th
significance key (`enumerate`), `c = 1 + m*16`, then the same 4×4 double
loop assigns consecutive codes to keys `(i, j, sig_key[0], sig_key[1])`. -/
def moveTypesTable : List ((Nat × Nat × Bool × Bool) × Nat) :=
  (sigKeys.zip (List.range sigKeys.length)).flatMap (fun sk =>
    ((((List.range' 1 4).flatMap (fun i => (List.range' 1 4).map (fun j => (i, j)))).zip
      (List.range' (1 + sk.2 * 16) 16)).map
      (fun q => ((q.1.1, q.1.2, sk.1.1, sk.1.2), q.2))))

/-- `MOVE_TYPES[(i, j, s1, s2)]` (looked up in `LISA_Markov.__init__`,
src/giddy/markov.py:1391-1394). -/
def MOVE_TYPES (i j : Nat) (s1 s2 : Bool) : Nat :=
  (moveTypesTable.lookup (i, j, s1, s2)).getD 0

/-- The claim's significance offset: 0, 16, 32, 48 according as the
(origin, destination) significance pair is (sig, sig), (sig, not),
(not, sig), (not, not). -/
def sigOffset (s1 s2 : Bool) : Nat :=
  if s1 then (if s2 then 0 else 16) else (if s2 then 32 else 48)

/-- The Python builtin `max(v)` over a nonempty list: fold `max` over the
elements (the starting accumulator `headD` duplicates the first element,
which is idempotent for `max`). -/
def pyMax (l : List ℚ) : ℚ := l.foldl max (l.headD 0)

/-- `giddy.ergodic._steady_state_ergodic` (src/giddy/ergodic.py:53-64) with
the output of the external LAPACK call `v, d = np.linalg.eig(P.T)` taken as
input: `mv = max(v)`; `i = v.tolist().index(mv)` (first index of the
maximum); `row = abs(d[:, i])`; return `row / sum(row)`.  The spectrum is
modelled on the real line over `ℚ` (for the ergodic matrices of the claim
the selection happens among values `≤ 1`); `d r i` is entry `r` of the
eigenvector stored in column `i`. -/
def steadyStateErgodicFromEig (v : List ℚ) (d : Mat) (k : Nat) : List ℚ :=
  let mv := pyMax v
  let i := v.indexOf mv
  let row := (List.range k).map (fun r => |d r i|)
  row.map (fun x => x / row.sum)

/-- `T = M.sum(axis=0)` (src/giddy/markov.py:1773): pooled counts over the
regimes. -/
def pooledT (Ms : List Mat) : Mat := fun i j => (Ms.map (fun mat => mat i j)).sum

/-- `A_i = (T > 0).sum(axis=1)` (src/giddy/markov.py:1776): per row, the
number of strictly positive pooled entries among the `k` columns. -/
def homA (Ms : List Mat) (k i : Nat) : Nat :=
  ((List.range k).filter (fun j => decide (0 < pooledT Ms i j))).length

/-- `b_i` accumulated over the regime loop (src/giddy/markov.py:1780,1793):
`b_i += 1.0 * (nim > 0)` with `nim = nijm.sum(axis=1)`. -/
def homB (Ms : List Mat) (k i : Nat) : ℚ :=
  (Ms.map (fun mat => if 0 < rowSumK mat k i then (1 : ℚ) else 0)).sum

/-- `self.dof = int(((b_i - 1) * (A_i - 1)).sum())`
(src/giddy/markov.py:1812); the float value is an integer, so `int`
truncation is the identity and the sum is kept in `ℚ`. -/
def homDof (Ms : List Mat) (r k : Nat) : ℚ :=
  ∑ i ∈ Finset.range r, (homB Ms k i - 1) * ((homA Ms k i : ℚ) - 1)

/-- `p_ij = np.dot(np.diag(1.0/(n_i + (n_i == 0)*1.0)), T)`
(src/giddy/markov.py:1778): the pooled row-normalized null matrix — the
same guarded row-normalization idiom as `markovP`. -/
def pHat (Ms : List Mat) (k : Nat) : Mat := markovP (pooledT Ms) k

/-- The `Q` statistic (src/giddy/markov.py:1779,1794-1799): over regimes,
`qijm = np.dot(np.diag(nim), (p_ijm - p_ij)**2 / den)` summed over all
cells, with `den = p_ij + 1.0*(p_ij == 0)`. -/
def homQ (Ms : List Mat) (r k : Nat) : ℚ :=
  (Ms.map (fun mat =>
    ∑ i ∈ Finset.range r, ∑ j ∈ Finset.range k,
      rowSumK mat k i *
        ((markovP mat k i j - pHat Ms k i j) ^ 2
          / (pHat Ms k i j + if pHat Ms k i j = 0 then 1 else 0)))).sum

/-- The `LR` accumulation (src/giddy/markov.py:1801-1806):
`mask = (nijm > 0)*(p_ij > 0)`; `ratio = (mask*p_ijm + unmask)/(mask*p_ij
+ unmask)`; `lr = nijm*np.log(ratio)`, summed over regimes and cells.  The
transcendental `np.log` is an explicit parameter. -/
def homLRhalf (lg : ℚ → ℚ) (Ms : List Mat) (r k : Nat) : ℚ :=
  (Ms.map (fun mat =>
    ∑ i ∈ Finset.range r, ∑ j ∈ Finset.range k,
      mat i j * lg
        ((if 0 < mat i j ∧ 0 < pHat Ms k i j then markovP mat k i j else 1)
          / (if 0 < mat i j ∧ 0 < pHat Ms k i j then pHat Ms k i j else 1)))).sum

/-- `self.LR = LR * 2.0` (src/giddy/markov.py:1815). -/
def homLR (lg : ℚ → ℚ) (Ms : List Mat) (r k : Nat) : ℚ :=
  homLRhalf lg Ms r k * 2

/-- `self.Q_p_value = 1 - stats.chi2.cdf(self.Q, self.dof)`
(src/giddy/markov.py:1814); the chi-square CDF of the external `scipy` is
an explicit parameter `cdf stat dof`. -/
def homQPValue (cdf : ℚ → ℚ → ℚ) (Ms : List Mat) (r k : Nat) : ℚ :=
  1 - cdf (homQ Ms r k) (homDof Ms r k)

/-- `self.LR_p_value = 1 - stats.chi2.cdf(self.LR, self.dof)`
(src/giddy/markov.py:1816). -/
def homLRPValue (cdf : ℚ → ℚ → ℚ) (lg : ℚ → ℚ) (Ms : List Mat) (r k : Nat) : ℚ :=
  1 - cdf (homLR lg Ms r k) (homDof Ms r k)

/-- The claim's `b_i`: the number of regimes having at least one nonzero
count in row `i`. -/
def regimesNonzeroRow (Ms : List Mat) (k i : Nat) : Nat :=
  (Ms.filter (fun mat => decide (∃ j < k, mat i j ≠ 0))).length

/-- The claim's `A_i`: the number of columns with a nonzero pooled count in
row `i`. -/
def pooledNonzeroCols (Ms : List Mat) (k i : Nat) : Nat :=
  ((List.range k).filter (fun j => decide (pooledT Ms i j ≠ 0))).length

/-- A numpy array object, for the allocation model of
`giddy.util.fill_empty_diagonals`: a 2-d `k×k` or a 3-d `m×k×k` float
array (the only shapes the function accepts). -/
inductive PyArr : Type
  | two (k : Nat) (m : Mat)
  | three (m k : Nat) (f : Nat → Nat → Nat → ℚ)

instance : Inhabited PyArr := ⟨PyArr.two 0 (fun _ _ => 0)⟩

/-- `p.sum(axis=2)` of a 3-d array at slice `a`, row `b`. -/
def rowSum3 (f : Nat → Nat → Nat → ℚ) (k a b : Nat) : ℚ :=
  ∑ c ∈ Finset.range k, f a b c

/-- `giddy.util._fill_empty_diagonal_3d` (src/giddy/util.py:158-186), value
semantics: `p0 = p.sum(axis=2) == 0`; every `(i, j)` with a zero row sum
gets `p_temp[i, j, j] = 1`. -/
def fillEmptyDiagonals3d (f : Nat → Nat → Nat → ℚ) (m k : Nat) :
    Nat → Nat → Nat → ℚ :=
  fun a b c =>
    if a < m ∧ b < k ∧ b = c ∧ rowSum3 f k a b = 0 then 1 else f a b c

/-- The in-place repair writes of `_fill_empty_diagonal_2d` / `_3d` applied
to one array object (`p_temp[row, row] = 1` over `np.where(p0)`, value
semantics). -/
def fillArr : PyArr → PyArr
  | PyArr.two k m => PyArr.two k (fillEmptyDiagonals2d m k)
  | PyArr.three m k f => PyArr.three m k (fillEmptyDiagonals3d f m k)

/-- `giddy.util.fill_empty_diagonals` (src/giddy/util.py:81-186) in an
explicit heap model: the heap is the list of allocated array objects and an
array reference is an index into it.  `np.asarray` on an `ndarray` returns
the same reference; `p_temp = copy.copy(p)` allocates a fresh array holding
a copy of the referenced buffer (`copy.copy` of an `ndarray` copies the
data); the diagonal writes then mutate only that fresh array.  Returns the
reference to the repaired array together with the post-call heap. -/
def fillEmptyDiagonalsHeap (h : List PyArr) (ptr : Nat) : Nat × List PyArr :=
  let h' := h ++ [h.getD ptr default]
  (h.length, h'.set h.length (fillArr (h'.getD h.length default)))

/-- The mutable attributes of a `Rose` object that `permute` reads or
writes (src/giddy/directional.py:177-246).  `std_perm`
(`counts.std(axis=0)`, a floating square root) is not representable over
`ℚ` and is left out of the model; the claims are decided by the attributes
kept here. -/
structure RoseState where
  counts : List ℚ
  k : Nat
  p : List ℚ
  counts_perm : List (List ℚ)
  larger_perm : List ℚ
  smaller_perm : List ℚ
  expected_perm : List ℚ

/-- `POS8` / `POS4` (src/giddy/directional.py:12-13), selected by `k`
(src/giddy/directional.py:229-231). -/
def posVec (k : Nat) : List ℚ :=
  if k = 4 then [1, 0, 1, 0] else [1, 1, 0, 0, 1, 1, 0, 0]

/-- `NEG8` / `NEG4` = `1 - POS` (src/giddy/directional.py:14-15). -/
def negVec (k : Nat) : List ℚ := (posVec k).map (fun x => 1 - x)

/-- `Rose.permute` (src/giddy/directional.py:191-246).  The permutation
loop calls `self._calc` on a row-shuffled copy of `Y`; `_calc` is built
from external collaborators (`lag_spatial`) and floating trigonometry
(`arctan2`, `histogram`), so each trial's sector-count vector is supplied
by the oracle list `trialCounts` (one `k`-vector per permutation, the
embedded result of the shuffled `_calc` calls).  The method then
unconditionally overwrites `counts_perm`, `larger_perm`, `smaller_perm`,
`expected_perm` (and `std_perm`, not modelled), and only afterwards
branches on `alternative.upper()`; an unrecognized keyword prints an error
message (returned here as `some msg`) and returns without assigning `p`
and without raising.  Python strings are modelled as their character lists
(`.upper()` maps `Char.toUpper` over the characters). -/
def rosePermute (st : RoseState) (trialCounts : List (List ℚ))
    (permutations : Nat) (alternative : List Char) :
    RoseState × Option (List Char) :=
  let counts := trialCounts
  let larger := (List.range st.k).map (fun i =>
    ((counts.filter (fun row => decide (st.counts.getD i 0 ≤ row.getD i 0))).length : ℚ))
  let smaller := (List.range st.k).map (fun i =>
    ((counts.filter (fun row => decide (row.getD i 0 ≤ st.counts.getD i 0))).length : ℚ))
  let expected := (List.range st.k).map (fun i =>
    ((counts.map (fun row => row.getD i 0)).sum) / (counts.length : ℚ))
  let st' := { st with
    counts_perm := counts
    larger_perm := larger
    smaller_perm := smaller
    expected_perm := expected }
  let alt := alternative.map Char.toUpper
  if alt = "TWO.SIDED".toList then
    let Pv := larger.map (fun x => (x + 1) / ((permutations : ℚ) + 1))
    ({ st' with p := Pv.map (fun P => if P < 1/2 then 2 * P else 2 * (1 - P)) },
     none)
  else if alt = "POSITIVE".toList then
    let L := larger.map (fun x => (x + 1) / ((permutations : ℚ) + 1))
    let S := smaller.map (fun x => (x + 1) / ((permutations : ℚ) + 1))
    ({ st' with p := (List.range st.k).map (fun i =>
        (posVec st.k).getD i 0 * L.getD i 0
          + (1 - (posVec st.k).getD i 0) * S.getD i 0) }, none)
  else if alt = "NEGATIVE".toList then
    let L := larger.map (fun x => (x + 1) / ((permutations : ℚ) + 1))
    let S := smaller.map (fun x => (x + 1) / ((permutations : ℚ) + 1))
    ({ st' with p := (List.range st.k).map (fun i =>
        (negVec st.k).getD i 0 * L.getD i 0
          + (1 - (negVec st.k).getD i 0) * S.getD i 0) }, none)
  else
    (st', some ("Bad option for alternative: ".toList ++ alternative ++ ".".toList))

/-- A `Rose` state as left by a previous successful `permute` call, used as
the concrete prior state of the counterexample. -/
def exRose : RoseState :=
  { counts := [5]
    k := 1
    p := [1/2]
    counts_perm := [[0]]
    larger_perm := [0]
    smaller_perm := [1]
    expected_perm := [0] }

/-- An example all-ones eigenvector matrix. -/
def exOnes : Mat := fun _ _ => 1

/-- An example 2×2 regime count matrix: rows `[1, 1]` and `[0, 0]`. -/
def exM1 : Mat := fun i _ => if i = 0 then 1 else 0

/-- An example 2×2 regime count matrix: rows `[2, 0]` and `[0, 1]`. -/
def exM2 : Mat :=
  fun i j => if i = 0 ∧ j = 0 then 2 else if i = 1 ∧ j = 1 then 1 else 0

/-- An example one-object heap. -/
def exHeap : List PyArr := [PyArr.two 1 (fun _ _ => 0)]

/-- An example 2×2 matrix whose second row is all zero. -/
def exP : Mat := fun r c => if r = 0 ∧ c = 0 then 1 else 0

/-- An example 2×2 stochastic matrix (no zero rows). -/
def exQ : Mat := fun r c => if r = c then 1 else 0

/-! ### Lemmas about the embedded primitives -/

lemma rowSumK_eq_zero_iff_of_nonneg {P : Mat} {k r : Nat}
    (hnn : ∀ c < k, 0 ≤ P r c) :
    rowSumK P k r = 0 ↔ IsZeroRow P k r := by
  unfold rowSumK IsZeroRow
  rw [Finset.sum_eq_zero_iff_of_nonneg]
  · constructor
    · intro h c hc
      exact h c (Finset.mem_range.mpr hc)
    · intro h c hc
      exact h c (Finset.mem_range.mp hc)
  · intro c hc
    exact hnn c (Finset.mem_range.mp hc)

lemma zeroRowCount_eq_allZeroRowCount {P : Mat} {k : Nat}
    (hnn : ∀ r < k, ∀ c < k, 0 ≤ P r c) :
    zeroRowCount P k = allZeroRowCount P k := by
  unfold zeroRowCount allZeroRowCount
  congr 1
  apply List.filter_congr
  intro r hr
  have hrk : r < k := List.mem_range.mp hr
  simp only [decide_eq_decide]
  exact rowSumK_eq_zero_iff_of_nonneg (hnn r hrk)

lemma zeroRowCount_pos_iff {P : Mat} {k : Nat} :
    0 < zeroRowCount P k ↔ ∃ r < k, rowSumK P k r = 0 := by
  unfold zeroRowCount
  rw [List.length_pos_iff_exists_mem]
  constructor
  · rintro ⟨r, hr⟩
    rw [List.mem_filter] at hr
    exact ⟨r, List.mem_range.mp hr.1, of_decide_eq_true hr.2⟩
  · rintro ⟨r, hrk, h⟩
    exact ⟨r, List.mem_filter.mpr ⟨List.mem_range.mpr hrk, decide_eq_true h⟩⟩

lemma rowSumK_eq_zero_of_isZeroRow {P : Mat} {k r : Nat} (h : IsZeroRow P k r) :
    rowSumK P k r = 0 :=
  Finset.sum_eq_zero (fun c hc => h c (Finset.mem_range.mp hc))

section MarkovEstimatorLemmas

variable {α : Type} [DecidableEq α]

lemma updateAdd_apply (m : Mat) (r c a b : Nat) (v : ℚ) :
    updateAdd m r c v a b = if a = r ∧ b = c then m a b + v else m a b := rfl

lemma count_endingOf (s0 s1 : List α) (i b : α) :
    (endingOf s0 s1 i).count b = pairCountN s0 s1 i b := by
  unfold endingOf pairCountN
  induction s0.zip s1 with
  | nil => rfl
  | cons q l ih =>
    by_cases h1 : q.1 = i
    · by_cases h2 : q.2 = b
      · simp [List.filter_cons, h1, h2, List.count_cons, ih]
      · simp [List.filter_cons, h1, h2, List.count_cons, ih]
    · simp [List.filter_cons, h1, ih]

lemma mem_endingOf {s0 s1 : List α} {i x : α} (h : x ∈ endingOf s0 s1 i) :
    x ∈ s1 := by
  unfold endingOf at h
  obtain ⟨q, hq, rfl⟩ := List.mem_map.mp h
  exact (List.of_mem_zip (List.mem_of_mem_filter hq)).2

lemma pairCountN_eq_zero_of_not_mem {s0 s1 : List α} {a b : α} (h : a ∉ s0) :
    pairCountN s0 s1 a b = 0 := by
  unfold pairCountN
  rw [List.length_eq_zero, List.filter_eq_nil_iff]
  intro q hq
  simp only [Bool.and_eq_true, beq_iff_eq, not_and]
  intro h1 _
  exact h (h1 ▸ (List.of_mem_zip hq).1)

lemma foldl_updateAdd_apply (classes : List α) (hnd : classes.Nodup)
    (C : Nat) (hC : C < classes.length) (ending : List α) (R0 R : Nat) :
    ∀ (L : List α), L.Nodup → (∀ x ∈ L, x ∈ classes) → ∀ (m : Mat),
      (L.foldl (fun acc j =>
          updateAdd acc R0 (classes.indexOf j) ((ending.count j : ℚ))) m) R C
        = m R C +
          if R0 = R ∧ classes.get ⟨C, hC⟩ ∈ L
          then ((ending.count (classes.get ⟨C, hC⟩) : ℚ)) else 0 := by
  intro L
  induction L with
  | nil => intro _ _ m; simp
  | cons j L' ih =>
    intro hndL hsub m
    rw [List.foldl_cons,
      ih hndL.of_cons (fun x hx => hsub x (List.mem_cons_of_mem _ hx)),
      updateAdd_apply]
    by_cases hR : R0 = R
    · subst hR
      by_cases hj : classes.indexOf j = C
      · have hjc : j ∈ classes := hsub j (List.mem_cons_self j L')
        have hjg : classes.get ⟨C, hC⟩ = j := by
          have hlt := List.indexOf_lt_length.mpr hjc
          have hget := List.indexOf_get (a := j) (l := classes) hlt
          rw [← hget]
          congr 1
          exact Fin.ext hj.symm
        have hnotin : classes.get ⟨C, hC⟩ ∉ L' := by
          rw [hjg]
          exact (List.nodup_cons.mp hndL).1
        rw [if_pos ⟨rfl, hj.symm⟩, if_neg (fun h => hnotin h.2),
          if_pos ⟨rfl, by rw [hjg]; exact List.mem_cons_self j L'⟩, hjg]
        ring
      · have hg_ne : classes.get ⟨C, hC⟩ ≠ j := by
          intro h
          apply hj
          rw [← h]
          exact List.get_indexOf hnd ⟨C, hC⟩
        rw [if_neg (fun h => hj h.2.symm)]
        by_cases hmem : classes.get ⟨C, hC⟩ ∈ L'
        · rw [if_pos ⟨rfl, hmem⟩, if_pos ⟨rfl, List.mem_cons_of_mem _ hmem⟩]
        · rw [if_neg (fun h => hmem h.2),
            if_neg (fun h => (List.mem_cons.mp h.2).elim (fun hh => hg_ne hh) hmem)]
    · rw [if_neg (fun h => hR h.1.symm), if_neg (fun h => hR h.1),
        if_neg (fun h => hR h.1)]

lemma innerPass_apply (classes : List α) (hnd : classes.Nodup)
    (i : α) (ending : List α) (hsub : ∀ x ∈ ending, x ∈ classes)
    (m : Mat) (R C : Nat) (hC : C < classes.length) :
    innerPass classes i ending m R C
      = m R C + if classes.indexOf i = R
                then ((ending.count (classes.get ⟨C, hC⟩) : ℚ)) else 0 := by
  unfold innerPass
  rw [foldl_updateAdd_apply classes hnd C hC ending (classes.indexOf i) R
    ending.dedup (List.nodup_dedup _) (fun x hx => hsub x (List.mem_dedup.mp hx)) m]
  by_cases hR : classes.indexOf i = R
  · by_cases hg : classes.get ⟨C, hC⟩ ∈ ending
    · rw [if_pos ⟨hR, List.mem_dedup.mpr hg⟩, if_pos hR]
    · rw [if_neg (fun h => hg (List.mem_dedup.mp h.2)), if_pos hR,
        List.count_eq_zero.mpr hg]
      norm_num
  · rw [if_neg (fun h => hR h.1), if_neg hR]

lemma foldl_innerPass_apply (classes : List α) (hnd : classes.Nodup)
    (s0 s1 : List α) (hs1 : ∀ x ∈ s1, x ∈ classes)
    (R C : Nat) (hR : R < classes.length) (hC : C < classes.length) :
    ∀ (L : List α), L.Nodup → (∀ x ∈ L, x ∈ classes) → ∀ (m : Mat),
      (L.foldl (fun acc i => innerPass classes i (endingOf s0 s1 i) acc) m) R C
        = m R C +
          if classes.get ⟨R, hR⟩ ∈ L
          then (((endingOf s0 s1 (classes.get ⟨R, hR⟩)).count
                  (classes.get ⟨C, hC⟩) : ℚ))
          else 0 := by
  intro L
  induction L with
  | nil => intro _ _ m; simp
  | cons i L' ih =>
    intro hndL hsub m
    rw [List.foldl_cons,
      ih hndL.of_cons (fun x hx => hsub x (List.mem_cons_of_mem _ hx)),
      innerPass_apply classes hnd i (endingOf s0 s1 i)
        (fun x hx => hs1 x (mem_endingOf hx)) m R C hC]
    by_cases hi : i = classes.get ⟨R, hR⟩
    · subst hi
      have hidx : classes.indexOf (classes.get ⟨R, hR⟩) = R :=
        List.get_indexOf hnd ⟨R, hR⟩
      have hnotin : classes.get ⟨R, hR⟩ ∉ L' := (List.nodup_cons.mp hndL).1
      rw [if_pos hidx, if_neg hnotin, if_pos (List.mem_cons_self _ L')]
      ring
    · have hidx : classes.indexOf i ≠ R := by
        intro h
        apply hi
        have hic : i ∈ classes := hsub i (List.mem_cons_self i L')
        have hlt := List.indexOf_lt_length.mpr hic
        have hget := List.indexOf_get (a := i) (l := classes) hlt
        rw [← hget]
        congr 1
        exact Fin.ext h
      rw [if_neg hidx]
      by_cases hmem : classes.get ⟨R, hR⟩ ∈ L'
      · rw [if_pos hmem, if_pos (List.mem_cons_of_mem _ hmem)]
        ring
      · rw [if_neg hmem,
          if_neg (fun h => (List.mem_cons.mp h).elim (fun hh => hi hh.symm) hmem)]
        ring

lemma stepPair_apply (classes : List α) (hnd : classes.Nodup)
    (s0 s1 : List α) (hs0 : ∀ x ∈ s0, x ∈ classes) (hs1 : ∀ x ∈ s1, x ∈ classes)
    (m : Mat) (R C : Nat) (hR : R < classes.length) (hC : C < classes.length) :
    stepPair classes m s0 s1 R C
      = m R C +
        (pairCountN s0 s1 (classes.get ⟨R, hR⟩) (classes.get ⟨C, hC⟩) : ℚ) := by
  unfold stepPair
  rw [foldl_innerPass_apply classes hnd s0 s1 hs1 R C hR hC s0.dedup
    (List.nodup_dedup _) (fun x hx => hs0 x (List.mem_dedup.mp hx)) m]
  by_cases hf : classes.get ⟨R, hR⟩ ∈ s0
  · rw [if_pos (List.mem_dedup.mpr hf), count_endingOf]
  · rw [if_neg (fun h => hf (List.mem_dedup.mp h)),
      pairCountN_eq_zero_of_not_mem hf]
    norm_num

lemma foldl_stepPair_apply [Inhabited α] (classes : List α) (hnd : classes.Nodup)
    (ids : List (List α)) (R C : Nat)
    (hR : R < classes.length) (hC : C < classes.length) :
    ∀ (S : List Nat),
      (∀ s ∈ S, (∀ x ∈ colOf ids s, x ∈ classes) ∧
        (∀ x ∈ colOf ids (s + 1), x ∈ classes)) →
      ∀ (m : Mat),
        (S.foldl (fun m s => stepPair classes m (colOf ids s) (colOf ids (s + 1))) m) R C
          = m R C + ((S.map (fun s =>
              (pairCountN (colOf ids s) (colOf ids (s + 1))
                (classes.get ⟨R, hR⟩) (classes.get ⟨C, hC⟩) : ℚ))).sum) := by
  intro S
  induction S with
  | nil => intro _ m; simp
  | cons s S' ih =>
    intro hcov m
    rw [List.foldl_cons,
      ih (fun u hu => hcov u (List.mem_cons_of_mem _ hu)),
      stepPair_apply classes hnd _ _ (hcov s (List.mem_cons_self s S')).1
        (hcov s (List.mem_cons_self s S')).2 m R C hR hC,
      List.map_cons, List.sum_cons]
    ring

/-- The transition-count entry formula: cell `(R, C)` pools, over the
`t - 1` consecutive period pairs, the number of units moving from
`classes[R]` to `classes[C]`. -/
lemma transitionsOf_apply [Inhabited α] (classes : List α) (hnd : classes.Nodup)
    (ids : List (List α)) (t : Nat)
    (hcov : ∀ s < t, ∀ x ∈ colOf ids s, x ∈ classes)
    (R C : Nat) (hR : R < classes.length) (hC : C < classes.length) :
    transitionsOf classes ids t R C
      = ((List.range (t - 1)).map (fun s =>
          (pairCountN (colOf ids s) (colOf ids (s + 1))
            (classes.get ⟨R, hR⟩) (classes.get ⟨C, hC⟩) : ℚ))).sum := by
  unfold transitionsOf
  rw [foldl_stepPair_apply classes hnd ids R C hR hC (List.range (t - 1))
    (by
      intro s hs
      have hst : s < t - 1 := List.mem_range.mp hs
      exact ⟨hcov s (by omega), hcov (s + 1) (by omega)⟩)
    (fun _ _ => 0)]
  show 0 + _ = _
  rw [zero_add]

lemma transitionsOf_nonneg [Inhabited α] (classes : List α) (hnd : classes.Nodup)
    (ids : List (List α)) (t : Nat)
    (hcov : ∀ s < t, ∀ x ∈ colOf ids s, x ∈ classes)
    (R : Nat) (hR : R < classes.length) :
    ∀ c < classes.length, 0 ≤ transitionsOf classes ids t R c := by
  intro c hc
  rw [transitionsOf_apply classes hnd ids t hcov R c hR hc]
  apply List.sum_nonneg
  intro x hx
  obtain ⟨s, _, rfl⟩ := List.mem_map.mp hx
  exact Nat.cast_nonneg _

end MarkovEstimatorLemmas

lemma markovP_zero_row {trans : Mat} {k R : Nat} (hz : IsZeroRow trans k R) :
    ∀ c < k, markovP trans k R c = 0 := by
  intro c hc
  show 1 / (rowSumK trans k R + if rowSumK trans k R = 0 then 1 else 0)
      * trans R c = 0
  rw [hz c hc, mul_zero]

lemma rowSumK_markovP_eq_zero {trans : Mat} {k R : Nat}
    (hz : IsZeroRow trans k R) : rowSumK (markovP trans k) k R = 0 :=
  Finset.sum_eq_zero
    (fun c hc => markovP_zero_row hz c (Finset.mem_range.mp hc))

lemma rowSumK_markovP_eq_one {trans : Mat} {k R : Nat}
    (hS : rowSumK trans k R ≠ 0) :
    rowSumK (markovP trans k) k R = 1 := by
  have h : rowSumK (markovP trans k) k R
      = 1 / (rowSumK trans k R + if rowSumK trans k R = 0 then 1 else 0)
          * rowSumK trans k R := by
    unfold markovP rowSumK
    rw [Finset.mul_sum]
  rw [h, if_neg hS, add_zero, one_div, inv_mul_cancel₀ hS]

lemma rowSumK_fillEmptyDiagonals2d_of_zero {m : Mat} {k R : Nat} (hR : R < k)
    (hz : ∀ c < k, m R c = 0) :
    rowSumK (fillEmptyDiagonals2d m k) k R = 1 := by
  have hsum0 : rowSumK m k R = 0 :=
    Finset.sum_eq_zero (fun c hc => hz c (Finset.mem_range.mp hc))
  unfold rowSumK
  rw [Finset.sum_eq_single_of_mem R (Finset.mem_range.mpr hR)]
  · show (if R < k ∧ R = R ∧ rowSumK m k R = 0 then 1 else m R R) = 1
    rw [if_pos ⟨hR, rfl, hsum0⟩]
  · intro c hc hcR
    show (if R < k ∧ R = c ∧ rowSumK m k R = 0 then 1 else m R c) = 0
    rw [if_neg (fun h => hcR (h.2.1.symm)), hz c (Finset.mem_range.mp hc)]

lemma rowSumK_fillEmptyDiagonals2d_of_ne_zero {m : Mat} {k R : Nat}
    (hs : rowSumK m k R ≠ 0) :
    rowSumK (fillEmptyDiagonals2d m k) k R = rowSumK m k R := by
  unfold rowSumK
  apply Finset.sum_congr rfl
  intro c _
  show (if R < k ∧ R = c ∧ rowSumK m k R = 0 then 1 else m R c) = m R c
  rw [if_neg (fun h => hs h.2.2)]

/-! ### The claims -/

/-- C6: on a 2-D transition probability matrix (non-negative entries),
`fill_empty_diagonals` returns the input matrix with a `1` planted on the
diagonal of each all-zero row; every entry outside the all-zero rows is
unchanged, and a matrix with no all-zero row is returned unchanged. -/
theorem fill_empty_diagonals_2d_spec (P : Mat) (k : Nat)
    (hnn : ∀ r < k, ∀ c < k, 0 ≤ P r c) :
    (∀ r < k, IsZeroRow P k r →
      fillEmptyDiagonals2d P k r r = 1 ∧
      ∀ c, c ≠ r → fillEmptyDiagonals2d P k r c = P r c) ∧
    (∀ r, ¬ (r < k ∧ IsZeroRow P k r) →
      ∀ c, fillEmptyDiagonals2d P k r c = P r c) ∧
    ((∀ r < k, ¬ IsZeroRow P k r) → fillEmptyDiagonals2d P k = P) := by
  refine ⟨?_, ?_, ?_⟩
  · intro r hr hz
    constructor
    · simp [fillEmptyDiagonals2d, hr, rowSumK_eq_zero_of_isZeroRow hz]
    · intro c hc
      simp only [fillEmptyDiagonals2d]
      rw [if_neg]
      rintro ⟨-, hrc, -⟩
      exact hc hrc.symm
  · intro r hr c
    simp only [fillEmptyDiagonals2d]
    rw [if_neg]
    rintro ⟨hrk, hrc, hsum⟩
    exact hr ⟨hrk, (rowSumK_eq_zero_iff_of_nonneg (hnn r hrk)).mp hsum⟩
  · intro h
    funext r c
    simp only [fillEmptyDiagonals2d]
    rw [if_neg]
    rintro ⟨hrk, hrc, hsum⟩
    exact h r hrk ((rowSumK_eq_zero_iff_of_nonneg (hnn r hrk)).mp hsum)

/-- C6 witness: the theorem applied to a concrete 2×2 matrix whose second
row is all zero, and the repaired entries evaluated there. -/
theorem fill_empty_diagonals_2d_spec_witness :
    fillEmptyDiagonals2d exP 2 1 1 = 1 ∧ fillEmptyDiagonals2d exP 2 1 0 = exP 1 0 :=
  ⟨((fill_empty_diagonals_2d_spec exP 2 (by decide)).1 1 (by decide) (by decide)).1,
   ((fill_empty_diagonals_2d_spec exP 2 (by decide)).1 1 (by decide) (by decide)).2
     0 (by decide)⟩

/-- C2: for a non-negative `k`-by-`k` transition matrix `P` with at least
one all-zero row, both `steady_state(P)` and `mfpt(P)` called with
`fill_empty_classes=False` raise the `ValueError` whose message reports the
number of rows full of 0s (and return no result); when `P` has no all-zero
row, no such error is raised. -/
theorem steady_state_mfpt_zero_row_error (P : Mat) (k : Nat)
    (hnn : ∀ r < k, ∀ c < k, 0 ≤ P r c) :
    ((∃ r < k, IsZeroRow P k r) →
      steadyStateGate P k false =
        Except.error (zeroRowsMsg (allZeroRowCount P k)) ∧
      mfptGate P k false =
        Except.error (zeroRowsMsg (allZeroRowCount P k))) ∧
    ((∀ r < k, ¬ IsZeroRow P k r) →
      steadyStateGate P k false = Except.ok P ∧
      mfptGate P k false = Except.ok P) := by
  have hcount := zeroRowCount_eq_allZeroRowCount hnn
  constructor
  · rintro ⟨r, hrk, hz⟩
    have hpos : 0 < zeroRowCount P k :=
      zeroRowCount_pos_iff.mpr ⟨r, hrk, rowSumK_eq_zero_of_isZeroRow hz⟩
    constructor
    · unfold steadyStateGate
      rw [if_pos hpos, if_neg (by simp), hcount]
    · unfold mfptGate
      rw [if_pos hpos, if_neg (by simp), hcount]
  · intro h
    have hz : ¬ 0 < zeroRowCount P k := by
      rw [zeroRowCount_pos_iff]
      rintro ⟨r, hrk, hsum⟩
      exact h r hrk ((rowSumK_eq_zero_iff_of_nonneg (hnn r hrk)).mp hsum)
    constructor
    · simp only [steadyStateGate, if_neg hz]
    · simp only [mfptGate, if_neg hz]

/-- C2 witness: the theorem applied to a concrete 2×2 matrix with one
all-zero row; the error message is evaluated there. -/
theorem steady_state_mfpt_zero_row_error_witness :
    steadyStateGate exP 2 false = Except.error (zeroRowsMsg 1) :=
  ((steady_state_mfpt_zero_row_error exP 2 (by decide)).1
    ⟨1, by decide, by decide⟩).1.trans (by rfl)

/-- C1: for an `n × t` state-sequence array and a duplicate-free class list
covering every observed state, `Markov.__init__` produces `transitions[R, C]`
equal to the number of (unit, consecutive-period-pair) observations moving
from `classes[R]` to `classes[C]`, pooled over the `t - 1` period pairs; and
`p` is the row-normalization of `transitions` in which an all-zero count row
stays all-zero when `fill_empty_classes=False` and gets diagonal `1` when
`fill_empty_classes=True`. -/
theorem markov_transitions_and_p {α : Type} [DecidableEq α] [Inhabited α]
    (classes : List α) (ids : List (List α)) (t : Nat)
    (hnd : classes.Nodup)
    (hcov : ∀ s < t, ∀ x ∈ colOf ids s, x ∈ classes)
    (R C : Nat) (hR : R < classes.length) (hC : C < classes.length) :
    transitionsOf classes ids t R C
      = ((List.range (t - 1)).map (fun s =>
          (pairCountN (colOf ids s) (colOf ids (s + 1))
            (classes.get ⟨R, hR⟩) (classes.get ⟨C, hC⟩) : ℚ))).sum
    ∧ (IsZeroRow (transitionsOf classes ids t) classes.length R →
        markovP (transitionsOf classes ids t) classes.length R C = 0)
    ∧ (¬ IsZeroRow (transitionsOf classes ids t) classes.length R →
        markovP (transitionsOf classes ids t) classes.length R C
          = transitionsOf classes ids t R C
              / rowSumK (transitionsOf classes ids t) classes.length R)
    ∧ (IsZeroRow (transitionsOf classes ids t) classes.length R →
        fillEmptyDiagonals2d (markovP (transitionsOf classes ids t) classes.length)
          classes.length R C = if R = C then 1 else 0)
    ∧ (¬ IsZeroRow (transitionsOf classes ids t) classes.length R →
        fillEmptyDiagonals2d (markovP (transitionsOf classes ids t) classes.length)
          classes.length R C
          = transitionsOf classes ids t R C
              / rowSumK (transitionsOf classes ids t) classes.length R) := by
  have hnnR := transitionsOf_nonneg classes hnd ids t hcov R hR
  refine ⟨transitionsOf_apply classes hnd ids t hcov R C hR hC, ?_, ?_, ?_, ?_⟩
  · intro hz
    exact markovP_zero_row hz C hC
  · intro hz
    have hS : rowSumK (transitionsOf classes ids t) classes.length R ≠ 0 :=
      fun h => hz ((rowSumK_eq_zero_iff_of_nonneg hnnR).mp h)
    show 1 / (rowSumK (transitionsOf classes ids t) classes.length R
        + if rowSumK (transitionsOf classes ids t) classes.length R = 0
          then 1 else 0) * transitionsOf classes ids t R C = _
    rw [if_neg hS, add_zero, one_div, inv_mul_eq_div]
  · intro hz
    have hms : rowSumK (markovP (transitionsOf classes ids t) classes.length)
        classes.length R = 0 := rowSumK_markovP_eq_zero hz
    show (if R < classes.length ∧ R = C ∧
        rowSumK (markovP (transitionsOf classes ids t) classes.length)
          classes.length R = 0
      then 1 else markovP (transitionsOf classes ids t) classes.length R C) = _
    by_cases hRC : R = C
    · rw [if_pos ⟨hR, hRC, hms⟩, if_pos hRC]
    · rw [if_neg (fun h => hRC h.2.1), if_neg hRC]
      exact markovP_zero_row hz C hC
  · intro hz
    have hS : rowSumK (transitionsOf classes ids t) classes.length R ≠ 0 :=
      fun h => hz ((rowSumK_eq_zero_iff_of_nonneg hnnR).mp h)
    have hms : rowSumK (markovP (transitionsOf classes ids t) classes.length)
        classes.length R = 1 := rowSumK_markovP_eq_one hS
    show (if R < classes.length ∧ R = C ∧
        rowSumK (markovP (transitionsOf classes ids t) classes.length)
          classes.length R = 0
      then 1 else markovP (transitionsOf classes ids t) classes.length R C) = _
    rw [if_neg (fun h => one_ne_zero (hms ▸ h.2.2))]
    show 1 / (rowSumK (transitionsOf classes ids t) classes.length R
        + if rowSumK (transitionsOf classes ids t) classes.length R = 0
          then 1 else 0) * transitionsOf classes ids t R C = _
    rw [if_neg hS, add_zero, one_div, inv_mul_eq_div]

/-- C1 witness: the theorem applied to the concrete 2-unit, 2-period panel
`[[0, 1], [1, 1]]` with classes `[0, 1]`; the counted cell is evaluated. -/
theorem markov_transitions_and_p_witness :
    transitionsOf [0, 1] [[0, 1], [1, 1]] 2 0 1 = (1 : ℚ) :=
  ((markov_transitions_and_p [0, 1] [[0, 1], [1, 1]] 2 (by decide)
      (by decide) 0 1 (by decide) (by decide)).1).trans
    (by simp [List.range_succ, pairCountN, colOf])

/-- C9: the `Markov` class never surfaces the zero-row error: (a) the matrix
`p_temp` from which the class-structure attributes are computed is row
stochastic (every row of the `k`-by-`k` block sums to `1`) for every
count-derived `p`, even with `fill_empty_classes=False`; (b) the lazy
`steady_state` and `fmpt` accessors call the solvers with
`fill_empty_classes=True` (src/giddy/markov.py:284-294), and those calls
never take the `ValueError` branch, for every input matrix. -/
theorem markov_no_zero_row_error_surfaced {α : Type} [DecidableEq α] [Inhabited α]
    (classes : List α) (ids : List (List α)) (t : Nat)
    (hnd : classes.Nodup)
    (hcov : ∀ s < t, ∀ x ∈ colOf ids s, x ∈ classes) :
    (∀ R < classes.length,
      rowSumK (pTempOf (markovP (transitionsOf classes ids t) classes.length)
        classes.length) classes.length R = 1)
    ∧ (∀ (P : Mat) (k : Nat), ∃ Q,
        steadyStateGate P k true = Except.ok Q ∧ mfptGate P k true = Except.ok Q) := by
  constructor
  · intro R hRk
    have hnnR := transitionsOf_nonneg classes hnd ids t hcov R hRk
    by_cases hz : IsZeroRow (transitionsOf classes ids t) classes.length R
    · have hzm := markovP_zero_row hz
      have h0 := rowSumK_markovP_eq_zero hz
      have hpos : 0 < zeroRowCount
          (markovP (transitionsOf classes ids t) classes.length) classes.length :=
        zeroRowCount_pos_iff.mpr ⟨R, hRk, h0⟩
      unfold pTempOf
      rw [if_pos hpos]
      exact rowSumK_fillEmptyDiagonals2d_of_zero hRk hzm
    · have hS : rowSumK (transitionsOf classes ids t) classes.length R ≠ 0 :=
        fun h => hz ((rowSumK_eq_zero_iff_of_nonneg hnnR).mp h)
      have h1 := rowSumK_markovP_eq_one hS
      unfold pTempOf
      by_cases hpos : 0 < zeroRowCount
          (markovP (transitionsOf classes ids t) classes.length) classes.length
      · rw [if_pos hpos,
          rowSumK_fillEmptyDiagonals2d_of_ne_zero (h1 ▸ one_ne_zero)]
        exact h1
      · rw [if_neg hpos]
        exact h1
  · intro P k
    by_cases h : 0 < zeroRowCount P k
    · exact ⟨fillEmptyDiagonals2d P k,
        by unfold steadyStateGate; rw [if_pos h, if_pos rfl],
        by unfold mfptGate; rw [if_pos h, if_pos rfl]⟩
    · exact ⟨P,
        by unfold steadyStateGate; rw [if_neg h],
        by unfold mfptGate; rw [if_neg h]⟩

/-- C9 witness: the theorem applied to the concrete panel `[[0, 0], [1, 1]]`
(class `0` and class `1` never interchange, so with classes `[0, 1, 2]` the
count row of class `2` is all zero), evaluating a repaired row sum and the
always-ok accessor gates. -/
theorem markov_no_zero_row_error_surfaced_witness :
    rowSumK (pTempOf (markovP (transitionsOf [0, 1, 2] [[0, 0], [1, 1]] 2) 3) 3) 3 2 = 1 :=
  (markov_no_zero_row_error_surfaced [0, 1, 2] [[0, 0], [1, 1]] 2 (by decide)
    (by decide)).1 2 (by decide)

/-- C7: for a stochastic `k`-by-`k` matrix `p`, `sojourn_time(p)` returns
the vector whose entry `i` is `1/(1 - p[i, i])` when `p[i, i] < 1` and `+∞`
(modelled `none`) when `p[i, i] = 1`; when at least one state is absorbing
(`p[i, i] = 1`), the diagnostic listing exactly the absorbing-state indices
is emitted alongside the vector, and when no state is absorbing nothing is
emitted. -/
theorem sojourn_time_spec (p : Mat) (k : Nat)
    (hnn : ∀ r < k, ∀ c < k, 0 ≤ p r c)
    (hst : ∀ r < k, rowSumK p k r = 1) :
    (sojournTime p k true).1
      = (List.range k).map (fun i =>
          if p i i < 1 then some (1 / (1 - p i i)) else none)
    ∧ ((∃ i < k, p i i = 1) →
        (sojournTime p k true).2
          = some ((List.range k).filter (fun i => decide (p i i = 1)))
        ∧ ∀ i, (i ∈ (List.range k).filter (fun i => decide (p i i = 1))
            ↔ (i < k ∧ p i i = 1)))
    ∧ ((∀ i < k, p i i ≠ 1) → (sojournTime p k true).2 = none) := by
  have hzc : ¬ 0 < zeroRowCount p k := by
    rw [zeroRowCount_pos_iff]
    rintro ⟨r, hrk, h0⟩
    rw [hst r hrk] at h0
    exact one_ne_zero h0
  have hle : ∀ i < k, p i i ≤ 1 := by
    intro i hik
    calc p i i
        ≤ rowSumK p k i :=
          Finset.single_le_sum (f := fun c => p i c)
            (fun c hc => hnn i hik c (Finset.mem_range.mp hc))
            (Finset.mem_range.mpr hik)
      _ = 1 := hst i hik
  simp only [sojournTime]
  rw [if_neg hzc]
  by_cases habs : ∃ i < k, p i i = 1
  · have hany : (((List.range k).map (fun i => p i i)).any
        (fun x => decide (1 - x = 0))) = true := by
      rw [List.any_eq_true]
      obtain ⟨i, hik, hpi⟩ := habs
      exact ⟨p i i, List.mem_map.mpr ⟨i, List.mem_range.mpr hik, rfl⟩,
        by simp [hpi]⟩
    rw [if_pos hany]
    refine ⟨?_, ?_, ?_⟩
    · apply List.map_congr_left
      intro i hi
      have hik := List.mem_range.mp hi
      by_cases hpi : p i i = 1
      · rw [if_pos hpi, if_neg (by rw [hpi]; exact lt_irrefl 1)]
      · rw [if_neg hpi, if_pos (lt_of_le_of_ne (hle i hik) hpi)]
    · intro _
      refine ⟨rfl, fun i => ?_⟩
      simp [List.mem_filter, List.mem_range]
    · intro hno
      obtain ⟨i, hik, hpi⟩ := habs
      exact absurd hpi (hno i hik)
  · have hany : ¬ ((((List.range k).map (fun i => p i i)).any
        (fun x => decide (1 - x = 0))) = true) := by
      rw [List.any_eq_true]
      rintro ⟨x, hx, hd⟩
      obtain ⟨i, hi, rfl⟩ := List.mem_map.mp hx
      simp only [decide_eq_true_eq, sub_eq_zero] at hd
      exact habs ⟨i, List.mem_range.mp hi, hd.symm⟩
    rw [if_neg hany]
    refine ⟨?_, ?_, ?_⟩
    · apply List.map_congr_left
      intro i hi
      have hik := List.mem_range.mp hi
      have hpi : p i i ≠ 1 := fun h => habs ⟨i, hik, h⟩
      rw [if_pos (lt_of_le_of_ne (hle i hik) hpi)]
    · intro h
      exact absurd h habs
    · intro _
      rfl

/-- C7 witness: the theorem applied to the 2×2 identity matrix (both states
absorbing); the sojourn vector and the diagnostic are evaluated. -/
theorem sojourn_time_spec_witness :
    (sojournTime exQ 2 true).1 = [none, none] ∧
    (sojournTime exQ 2 true).2 = some [0, 1] := by
  have h := sojourn_time_spec exQ 2 (by decide)
    (by intro r hr; interval_cases r <;> simp [rowSumK, Finset.sum_range_succ, exQ])
  refine ⟨h.1.trans ?_, ((h.2.1 ⟨0, by decide, by decide⟩).1).trans ?_⟩
  · simp [List.range_succ, exQ]
  · simp [List.range_succ, exQ]

/-- C8: the base LISA move-type code for a quadrant transition
`(q1, q2) ∈ [1,4]²` is `TT[q1, q2] = 4*(q1-1) + q2 ∈ [1,16]`, and the
significance-refined code is `MOVE_TYPES[(q1, q2, s1, s2)]`, the base code
plus an offset of 0, 16, 32, 48 according as `(s1, s2)` is
(sig, sig), (sig, not), (not, sig), (not, not); it lies in `[1,64]`. -/
theorem lisa_move_type_codes (q1 q2 : Nat) (s1 s2 : Bool)
    (h1 : 1 ≤ q1) (h2 : q1 ≤ 4) (h3 : 1 ≤ q2) (h4 : q2 ≤ 4) :
    TT q1 q2 = 4 * (q1 - 1) + q2
    ∧ 1 ≤ TT q1 q2 ∧ TT q1 q2 ≤ 16
    ∧ MOVE_TYPES q1 q2 s1 s2 = 4 * (q1 - 1) + q2 + sigOffset s1 s2
    ∧ 1 ≤ MOVE_TYPES q1 q2 s1 s2 ∧ MOVE_TYPES q1 q2 s1 s2 ≤ 64 := by
  interval_cases q1 <;> interval_cases q2 <;> cases s1 <;> cases s2 <;> decide

/-- C8 witness: the theorem applied at the transition `(1, 3)` with a
significant origin and a non-significant destination. -/
theorem lisa_move_type_codes_witness :
    TT 1 3 = 3 ∧ MOVE_TYPES 1 3 true false = 19 :=
  ⟨((lisa_move_type_codes 1 3 true false (by decide) (by decide) (by decide)
      (by decide)).1).trans (by norm_num),
   ((lisa_move_type_codes 1 3 true false (by decide) (by decide) (by decide)
      (by decide)).2.2.2.1).trans (by norm_num [sigOffset])⟩

lemma le_foldl_max (t : List ℚ) :
    ∀ b : ℚ, b ≤ t.foldl max b ∧ ∀ x ∈ t, x ≤ t.foldl max b := by
  induction t with
  | nil =>
    intro b
    exact ⟨le_refl b, by simp⟩
  | cons a t ih =>
    intro b
    rw [List.foldl_cons]
    refine ⟨le_trans (le_max_left b a) (ih (max b a)).1, ?_⟩
    intro x hx
    rcases List.mem_cons.mp hx with rfl | hx
    · exact le_trans (le_max_right b x) (ih (max b x)).1
    · exact (ih (max b a)).2 x hx

lemma foldl_max_mem (t : List ℚ) :
    ∀ b : ℚ, t.foldl max b = b ∨ t.foldl max b ∈ t := by
  induction t with
  | nil =>
    intro b
    exact Or.inl rfl
  | cons a t ih =>
    intro b
    rw [List.foldl_cons]
    rcases ih (max b a) with h | h
    · rcases max_choice b a with hba | hba
      · exact Or.inl (h.trans hba)
      · rw [h, hba]
        exact Or.inr (List.mem_cons_self a t)
    · exact Or.inr (List.mem_cons_of_mem a h)

lemma pyMax_spec {v : List ℚ} (hne : v ≠ []) :
    pyMax v ∈ v ∧ ∀ x ∈ v, x ≤ pyMax v := by
  obtain ⟨a, t, rfl⟩ := List.exists_cons_of_ne_nil hne
  unfold pyMax
  simp only [List.headD_cons]
  rw [List.foldl_cons, max_self]
  constructor
  · rcases foldl_max_mem t a with h | h
    · rw [h]
      exact List.mem_cons_self a t
    · exact List.mem_cons_of_mem a h
  · intro x hx
    rcases List.mem_cons.mp hx with rfl | hx
    · exact (le_foldl_max t x).1
    · exact (le_foldl_max t a).2 x hx

lemma list_sum_div (l : List ℚ) (s : ℚ) :
    (l.map (fun x => x / s)).sum = l.sum / s := by
  induction l with
  | nil => simp
  | cons a t ih => simp [ih, add_div]

/-- C3: for an ergodic transition matrix — whose (real-modelled) spectrum
contains the eigenvalue `1` and lies in `(-∞, 1]` — `_steady_state_ergodic`
selects, among all eigenvalues of the transposed matrix, the eigenvalue
closest to `1` (the Python `max`, which under these hypotheses is `1`
itself, of distance `0`), and returns the element-wise absolute value of
the associated eigenvector column normalized to sum to `1`. -/
theorem steady_state_selects_eigenvalue_closest_to_one
    (v : List ℚ) (d : Mat) (k : Nat)
    (hne : v ≠ []) (h1 : (1 : ℚ) ∈ v) (hle : ∀ x ∈ v, x ≤ 1)
    (hpos : 0 < ((List.range k).map (fun r => |d r (v.indexOf 1)|)).sum) :
    pyMax v = 1
    ∧ (∀ x ∈ v, |pyMax v - 1| ≤ |x - 1|)
    ∧ steadyStateErgodicFromEig v d k
        = ((List.range k).map (fun r => |d r (v.indexOf 1)|)).map
            (fun x => x / ((List.range k).map (fun r => |d r (v.indexOf 1)|)).sum)
    ∧ (steadyStateErgodicFromEig v d k).sum = 1 := by
  obtain ⟨hmem, hmax⟩ := pyMax_spec hne
  have hm1 : pyMax v = 1 := le_antisymm (hle _ hmem) (hmax 1 h1)
  have h3 : steadyStateErgodicFromEig v d k
      = ((List.range k).map (fun r => |d r (v.indexOf 1)|)).map
          (fun x => x / ((List.range k).map (fun r => |d r (v.indexOf 1)|)).sum) := by
    unfold steadyStateErgodicFromEig
    rw [hm1]
  refine ⟨hm1, ?_, h3, ?_⟩
  · intro x hx
    rw [hm1]
    simp
  · rw [h3, list_sum_div, div_self (ne_of_gt hpos)]

/-- C3 witness: the theorem applied to the spectrum `[1, 0]` with an
all-ones eigenvector matrix; the selected eigenvalue is evaluated. -/
theorem steady_state_selects_eigenvalue_closest_to_one_witness :
    pyMax [1, 0] = 1 :=
  (steady_state_selects_eigenvalue_closest_to_one [1, 0] exOnes 2
    (by decide) (by decide) (by decide)
    (by norm_num [exOnes, List.range_succ])).1

lemma list_sum_ite_one_eq_filter_length {β : Type} (l : List β) (p : β → Prop)
    [DecidablePred p] :
    (l.map (fun x => if p x then (1 : ℚ) else 0)).sum
      = ((l.filter (fun x => decide (p x))).length : ℚ) := by
  induction l with
  | nil => simp
  | cons a t ih =>
    by_cases h : p a
    · simp [List.filter_cons, h, ih, add_comm]
    · simp [List.filter_cons, h, ih]

lemma homB_eq {Ms : List Mat} {r k i : Nat}
    (hnn : ∀ mat ∈ Ms, ∀ i < r, ∀ j < k, 0 ≤ mat i j) (hir : i < r) :
    homB Ms k i = (regimesNonzeroRow Ms k i : ℚ) := by
  unfold homB regimesNonzeroRow
  rw [← list_sum_ite_one_eq_filter_length Ms (fun mat => ∃ j < k, mat i j ≠ 0)]
  congr 1
  apply List.map_congr_left
  intro mat hm
  have hnnrow : ∀ j < k, 0 ≤ mat i j := hnn mat hm i hir
  have h0 : 0 ≤ rowSumK mat k i :=
    Finset.sum_nonneg (fun j hj => hnnrow j (Finset.mem_range.mp hj))
  have hiff : (0 < rowSumK mat k i) ↔ (∃ j < k, mat i j ≠ 0) := by
    rw [h0.lt_iff_ne]
    constructor
    · intro hne0
      by_contra hno
      push_neg at hno
      have hz : IsZeroRow mat k i := fun c hc => hno c hc
      exact hne0 ((rowSumK_eq_zero_iff_of_nonneg hnnrow).mpr hz).symm
    · rintro ⟨j, hj, hne⟩ h0eq
      exact hne ((rowSumK_eq_zero_iff_of_nonneg hnnrow).mp h0eq.symm j hj)
  exact if_congr hiff rfl rfl

lemma homA_eq {Ms : List Mat} {r k i : Nat}
    (hnn : ∀ mat ∈ Ms, ∀ i < r, ∀ j < k, 0 ≤ mat i j) (hir : i < r) :
    homA Ms k i = pooledNonzeroCols Ms k i := by
  unfold homA pooledNonzeroCols
  congr 1
  apply List.filter_congr
  intro j hj
  have hjk := List.mem_range.mp hj
  have h0 : 0 ≤ pooledT Ms i j := by
    apply List.sum_nonneg
    intro x hx
    obtain ⟨mat, hm, rfl⟩ := List.mem_map.mp hx
    exact hnn mat hm i hir j hjk
  simp only [decide_eq_decide]
  rw [h0.lt_iff_ne]
  exact ne_comm

/-- C4: the homogeneity test reports
`dof = Σ_i (b_i − 1)(A_i − 1)` where `b_i` is the number of regimes with at
least one nonzero count in row `i` and `A_i` the number of columns with a
nonzero pooled count in row `i`; and both the LR and the Q statistic are
referred to a chi-square distribution (the external CDF parameter) with
this same `dof`. -/
theorem homogeneity_dof_spec (Ms : List Mat) (r k : Nat)
    (hnn : ∀ mat ∈ Ms, ∀ i < r, ∀ j < k, 0 ≤ mat i j)
    (cdf : ℚ → ℚ → ℚ) (lg : ℚ → ℚ) :
    homDof Ms r k
      = ∑ i ∈ Finset.range r,
          ((regimesNonzeroRow Ms k i : ℚ) - 1)
            * ((pooledNonzeroCols Ms k i : ℚ) - 1)
    ∧ homQPValue cdf Ms r k
        = 1 - cdf (homQ Ms r k)
            (∑ i ∈ Finset.range r,
              ((regimesNonzeroRow Ms k i : ℚ) - 1)
                * ((pooledNonzeroCols Ms k i : ℚ) - 1))
    ∧ homLRPValue cdf lg Ms r k
        = 1 - cdf (homLR lg Ms r k)
            (∑ i ∈ Finset.range r,
              ((regimesNonzeroRow Ms k i : ℚ) - 1)
                * ((pooledNonzeroCols Ms k i : ℚ) - 1)) := by
  have hdof : homDof Ms r k
      = ∑ i ∈ Finset.range r,
          ((regimesNonzeroRow Ms k i : ℚ) - 1)
            * ((pooledNonzeroCols Ms k i : ℚ) - 1) := by
    unfold homDof
    apply Finset.sum_congr rfl
    intro i hi
    have hir := Finset.mem_range.mp hi
    rw [homB_eq hnn hir, homA_eq hnn hir]
  refine ⟨hdof, ?_, ?_⟩
  · unfold homQPValue
    rw [hdof]
  · unfold homLRPValue
    rw [hdof]

/-- C4 witness: the theorem applied to the concrete pair of 2×2 regime
count matrices `[[1,1],[0,0]]` and `[[2,0],[0,1]]` (with placeholder CDF
and log parameters). -/
theorem homogeneity_dof_spec_witness :
    homDof [exM1, exM2] 2 2
      = ∑ i ∈ Finset.range 2,
          ((regimesNonzeroRow [exM1, exM2] 2 i : ℚ) - 1)
            * ((pooledNonzeroCols [exM1, exM2] 2 i : ℚ) - 1) :=
  (homogeneity_dof_spec [exM1, exM2] 2 2 (by decide)
    (fun _ _ => 0) (fun _ => 0)).1

/-- C10: `fill_empty_diagonals` never mutates its argument: in the heap
model, the call returns a reference distinct from the argument's (a fresh
allocation), every pre-existing heap cell — in particular the caller's
input array — holds the same value after the call as before it, and the
fresh cell holds the repaired copy. -/
theorem fill_empty_diagonals_no_mutation (h : List PyArr) (ptr : Nat)
    (hp : ptr < h.length) :
    (fillEmptyDiagonalsHeap h ptr).1 ≠ ptr
    ∧ (∀ q < h.length,
        ((fillEmptyDiagonalsHeap h ptr).2).getD q default = h.getD q default)
    ∧ ((fillEmptyDiagonalsHeap h ptr).2).getD (fillEmptyDiagonalsHeap h ptr).1
        default
        = fillArr (h.getD ptr default) := by
  have hbase : (h ++ [h.getD ptr default]).getD h.length default
      = h.getD ptr default := by
    rw [List.getD_eq_getElem?_getD, List.getElem?_append_right (le_refl _)]
    simp
  refine ⟨ne_of_gt hp, ?_, ?_⟩
  · intro q hq
    show ((h ++ [h.getD ptr default]).set h.length
        (fillArr ((h ++ [h.getD ptr default]).getD h.length default))).getD q
        default = h.getD q default
    simp only [List.getD_eq_getElem?_getD]
    rw [List.getElem?_set_ne (Nat.ne_of_gt hq), List.getElem?_append_left hq]
  · show ((h ++ [h.getD ptr default]).set h.length
        (fillArr ((h ++ [h.getD ptr default]).getD h.length default))).getD
        h.length default = fillArr (h.getD ptr default)
    rw [List.getD_eq_getElem?_getD, List.getElem?_set_self]
    · rw [hbase]
      rfl
    · rw [List.length_append]
      simp

/-- C10 witness: the theorem applied to a one-object heap holding a 1×1
zero matrix; the result reference is fresh. -/
theorem fill_empty_diagonals_no_mutation_witness :
    (fillEmptyDiagonalsHeap exHeap 0).1 ≠ 0 :=
  (fill_empty_diagonals_no_mutation exHeap 0 (by decide)).1

/-- C5 (amended): `Rose.permute` with an unrecognized `alternative` keyword
(not two.sided / positive / negative, case-insensitively) reports the error
and returns without raising an exception; the previously computed `p`
attribute and the constructor attributes `counts` and `k` are untouched,
but the permutation summaries (`counts_perm`, `larger_perm`,
`smaller_perm`, `expected_perm`, and the unmodelled `std_perm`) are
recomputed from the fresh permutation run and overwritten before the
keyword is checked. -/
theorem rose_permute_bad_alternative (st : RoseState)
    (trialCounts : List (List ℚ)) (permutations : Nat) (alternative : List Char)
    (hbad : alternative.map Char.toUpper ≠ "TWO.SIDED".toList
      ∧ alternative.map Char.toUpper ≠ "POSITIVE".toList
      ∧ alternative.map Char.toUpper ≠ "NEGATIVE".toList) :
    (rosePermute st trialCounts permutations alternative).2
      = some ("Bad option for alternative: ".toList ++ alternative ++ ".".toList)
    ∧ (rosePermute st trialCounts permutations alternative).1.p = st.p
    ∧ (rosePermute st trialCounts permutations alternative).1.counts = st.counts
    ∧ (rosePermute st trialCounts permutations alternative).1.k = st.k
    ∧ (rosePermute st trialCounts permutations alternative).1.counts_perm
        = trialCounts
    ∧ (rosePermute st trialCounts permutations alternative).1.larger_perm
        = (List.range st.k).map (fun i =>
            ((trialCounts.filter (fun row =>
              decide (st.counts.getD i 0 ≤ row.getD i 0))).length : ℚ))
    ∧ (rosePermute st trialCounts permutations alternative).1.smaller_perm
        = (List.range st.k).map (fun i =>
            ((trialCounts.filter (fun row =>
              decide (row.getD i 0 ≤ st.counts.getD i 0))).length : ℚ))
    ∧ (rosePermute st trialCounts permutations alternative).1.expected_perm
        = (List.range st.k).map (fun i =>
            ((trialCounts.map (fun row => row.getD i 0)).sum)
              / (trialCounts.length : ℚ)) := by
  obtain ⟨h1, h2, h3⟩ := hbad
  unfold rosePermute
  rw [if_neg h1, if_neg h2, if_neg h3]
  exact ⟨rfl, rfl, rfl, rfl, rfl, rfl, rfl, rfl⟩

/-- C5 witness: the amended theorem applied to a concrete prior state and
the unrecognized keyword `"bogus"`. -/
theorem rose_permute_bad_alternative_witness :
    (rosePermute exRose [[7]] 1 "bogus".toList).2
      = some ("Bad option for alternative: ".toList ++ "bogus".toList
          ++ ".".toList)
    ∧ (rosePermute exRose [[7]] 1 "bogus".toList).1.p = exRose.p :=
  ⟨(rose_permute_bad_alternative exRose [[7]] 1 "bogus".toList
      ⟨by decide, by decide, by decide⟩).1,
   (rose_permute_bad_alternative exRose [[7]] 1 "bogus".toList
      ⟨by decide, by decide, by decide⟩).2.1⟩

/-- C5 counterexample: calling `permute` with the unrecognized keyword
`"bogus"` on a `Rose` object whose previous `permute` call left
`counts_perm = [[0]]`: the error is reported without raising and `p` is
unchanged, but `counts_perm` — an attribute computed by the previous call —
is overwritten by the fresh permutation run, so the object's prior state is
not left untouched as the claim states. -/
theorem rose_permute_bad_alternative_counterexample :
    ((rosePermute exRose [[7]] 1 "bogus".toList).2).isSome = true
    ∧ (rosePermute exRose [[7]] 1 "bogus".toList).1.p = exRose.p
    ∧ (rosePermute exRose [[7]] 1 "bogus".toList).1.counts_perm
        ≠ exRose.counts_perm := by
  refine ⟨?_, ?_, ?_⟩
  · rfl
  · rfl
  · intro hcontra
    have : ([[(7 : ℚ)]] : List (List ℚ)) = [[0]] := hcontra
    simp at this

end Giddy
